import Mathlib

/-!
Verification of the stock_cli candlestick-chart pipeline (`src/main.rs`).

The Rust program fetches weekly price bars for a symbol from the Finnhub
candle endpoint, thins the bar timestamps into month-boundary axis labels,
computes padded y-axis bounds from the high/low series, and draws one
colored candlestick per bar.

Shallow embedding conventions:
* `f64` prices are modelled as exact rationals (`ℚ`): every operation the
  program performs on prices is an order comparison, a `max`/`min`
  reduction, or addition/subtraction of the constant `25.0`, and all
  concrete values appearing in the development are exactly representable.
* `i64`/`i128` integers are modelled as `Int`.
* A Rust `panic!` / `.unwrap()` on `None` / out-of-bounds index is modelled
  by an `Option` result being `none` (or by an explicit `panicked`
  constructor where the distinction matters).
-/

/-- A calendar-aware datetime, as produced by chrono's conversion of epoch
seconds.  Only the fields the program reads are modelled: `year`
(chrono `year() : i32`), `month` (chrono `month() : u32`, 1–12) and the
originating epoch-second timestamp `secs`. -/
structure DateTime where
  year : Int
  month : Nat
  secs : Int
deriving DecidableEq, Repr

/-- The deserialized Finnhub candle response (`struct StockCandles`,
`src/main.rs` lines 14–23): parallel sequences of closes `c`, highs `h`,
lows `l`, opens `o`, timestamps `t`, volumes `v`, and the status string `s`. -/
structure StockCandles where
  c : List ℚ
  h : List ℚ
  l : List ℚ
  o : List ℚ
  s : String
  t : List Int
  v : List Int
deriving DecidableEq, Repr

/-! ## Timestamp conversion (`parse_time`, lines 166–171) -/

/-- Modelled from the spec: the civil-calendar (year, month, day) of a day
count relative to the Unix epoch.  chrono's conversion from epoch seconds to
a calendar date is library code not present in the repository; the spec
describes it as converting "each raw epoch integer into a timezone-aware
calendar datetime".  It is modelled here at offset zero (UTC) by the
standard proleptic-Gregorian civil-from-days computation. -/
def civilFromDays (days : Int) : Int × Nat × Nat :=
  let z := days + 719468
  let era := z.fdiv 146097
  let doe := z - era * 146097
  let yoe := (doe - doe.fdiv 1460 + doe.fdiv 36524 - doe.fdiv 146096).fdiv 365
  let y := yoe + era * 400
  let doy := doe - (365 * yoe + yoe.fdiv 4 - yoe.fdiv 100)
  let mp := (5 * doy + 2).fdiv 153
  let dom := doy - (153 * mp + 2).fdiv 5 + 1
  let m := mp + (if mp < 10 then 3 else -9)
  (y + (if m ≤ 2 then 1 else 0), m.toNat, dom.toNat)

/-- Modelled from the spec: `parse_time` (`src/main.rs` lines 166–171) calls
chrono's `Local.timestamp_opt(timestamp, 0).single()`, which fails (yielding
the error branch, mapped to `none` here) when the timestamp lies outside
chrono's representable range of roughly ±262 000 years; otherwise it yields
the calendar datetime of the instant. -/
def parse_time (timestamp : Int) : Option DateTime :=
  let c := civilFromDays (timestamp.fdiv 86400)
  if -262144 ≤ c.1 ∧ c.1 ≤ 262143 then
    some ⟨c.1, c.2.1, timestamp⟩
  else
    none

/-- The conversion step of `main` (lines 84–88): raw epoch timestamps are
passed through `parse_time` with `filter_map((... ).ok())`, silently
dropping every timestamp whose conversion fails. -/
def convertTimestamps (ts : List Int) : List DateTime :=
  ts.filterMap parse_time

/-! ## Label selection (`should_show_label`, lines 184–191, and the
lookahead walk of `main`, lines 91–99) -/

/-- The predicate `should_show_label` (lines 184–191): show the current timestamp as a
label iff there is no next timestamp, or the next timestamp's month or year
differs from the current one's. -/
def should_show_label (current_date : DateTime) (next_date : Option DateTime) : Bool :=
  match next_date with
  | some next_date =>
      (current_date.month != next_date.month) || (current_date.year != next_date.year)
  | none => true

/-- The label-selection walk of `main` (lines 91–99): a peekable iteration
pushing `current` exactly when `should_show_label current (peek)` holds. -/
def selectLabels : List DateTime → List DateTime
  | [] => []
  | d :: rest =>
      if should_show_label d rest.head? then d :: selectLabels rest
      else selectLabels rest

/-- The (year, month) bucket of a datetime. -/
def ym (d : DateTime) : Int × Nat := (d.year, d.month)

/-- Lexicographic order on (year, month) keys. -/
def ymLe (a b : Int × Nat) : Prop := a.1 < b.1 ∨ (a.1 = b.1 ∧ a.2 ≤ b.2)

/-- Strict lexicographic order on (year, month) keys. -/
def ymLt (a b : Int × Nat) : Prop := a.1 < b.1 ∨ (a.1 = b.1 ∧ a.2 < b.2)

instance (a b : Int × Nat) : Decidable (ymLe a b) :=
  inferInstanceAs (Decidable (_ ∨ _))

instance (a b : Int × Nat) : Decidable (ymLt a b) :=
  inferInstanceAs (Decidable (_ ∨ _))

/-- A bar sequence is chronologically ordered when timestamps are
non-decreasing and the derived (year, month) keys are lexicographically
non-decreasing along with them. -/
def chronOrdered (l : List DateTime) : Prop :=
  l.Pairwise (fun a b => a.secs ≤ b.secs ∧ ymLe (ym a) (ym b))

instance (l : List DateTime) : Decidable (chronOrdered l) := by
  unfold chronOrdered
  exact List.instDecidablePairwise l

/-! ### Basic lemmas about the label selector -/

theorem ssl_some_iff (d n : DateTime) :
    should_show_label d (some n) = true ↔ ym d ≠ ym n := by
  simp only [should_show_label, Bool.or_eq_true, bne_iff_ne, ne_eq, ym, Prod.mk.injEq, not_and]
  tauto

theorem selectLabels_nil : selectLabels [] = [] := rfl

theorem selectLabels_cons (d : DateTime) (rest : List DateTime) :
    selectLabels (d :: rest) =
      if should_show_label d rest.head? then d :: selectLabels rest
      else selectLabels rest := rfl

theorem selectLabels_singleton (d : DateTime) : selectLabels [d] = [d] := rfl

theorem selectLabels_sublist (l : List DateTime) : (selectLabels l).Sublist l := by
  induction l with
  | nil => simp [selectLabels]
  | cons d rest ih =>
      rw [selectLabels_cons]
      by_cases hs : should_show_label d rest.head? = true
      · simpa [hs] using ih.cons₂ d
      · simp only [hs, if_false]
        exact ih.cons d

theorem mem_of_mem_selectLabels {l : List DateTime} {d : DateTime}
    (h : d ∈ selectLabels l) : d ∈ l :=
  (selectLabels_sublist l).mem h

theorem getLast_mem_selectLabels (l : List DateTime) (h : l ≠ []) :
    l.getLast h ∈ selectLabels l := by
  induction l with
  | nil => exact absurd rfl h
  | cons d rest ih =>
      cases rest with
      | nil => simp [selectLabels_singleton, List.getLast]
      | cons d2 rest2 =>
          have hlast : (d :: d2 :: rest2).getLast h = (d2 :: rest2).getLast (by simp) := by
            simp [List.getLast]
          rw [hlast, selectLabels_cons]
          by_cases hs : should_show_label d (d2 :: rest2).head? = true
          · simp only [hs, if_true, List.mem_cons]
            exact Or.inr (ih (by simp))
          · simp only [hs, if_false]
            exact ih (by simp)

/-! ### Lexicographic (year, month) order lemmas -/

theorem ymLt_irrefl (a : Int × Nat) : ¬ ymLt a a := by
  simp [ymLt]

theorem ymLt_of_ymLe_of_ne {a b : Int × Nat} (h : ymLe a b) (hne : a ≠ b) :
    ymLt a b := by
  obtain ⟨a1, a2⟩ := a
  obtain ⟨b1, b2⟩ := b
  simp only [ymLe, ymLt, ne_eq, Prod.mk.injEq, not_and] at h hne ⊢
  omega

theorem ymLt_of_ymLt_of_ymLe {a b c : Int × Nat} (h1 : ymLt a b) (h2 : ymLe b c) :
    ymLt a c := by
  obtain ⟨a1, a2⟩ := a
  obtain ⟨b1, b2⟩ := b
  obtain ⟨c1, c2⟩ := c
  rcases h1 with h1 | ⟨h1, h1m⟩ <;> rcases h2 with h2 | ⟨h2, h2m⟩
  · exact Or.inl (h1.trans h2)
  · exact Or.inl (h2 ▸ h1)
  · exact Or.inl (h1 ▸ h2)
  · exact Or.inr ⟨h1.trans h2, h1m.trans_le h2m⟩

theorem chron_head_ymLt {d d2 : DateTime} {rest : List DateTime}
    (h : chronOrdered (d :: d2 :: rest)) (hne : ym d ≠ ym d2) :
    ∀ x ∈ d2 :: rest, ymLt (ym d) (ym x) := by
  rw [chronOrdered, List.pairwise_cons] at h
  obtain ⟨hhead, htail⟩ := h
  have hd2 : ymLt (ym d) (ym d2) :=
    ymLt_of_ymLe_of_ne (hhead d2 (by simp)).2 hne
  intro x hx
  rcases List.mem_cons.mp hx with rfl | hx
  · exact hd2
  · have : ymLe (ym d2) (ym x) :=
      ((List.pairwise_cons.mp htail).1 x hx).2
    exact ymLt_of_ymLt_of_ymLe hd2 this

theorem chronOrdered_tail {d : DateTime} {rest : List DateTime}
    (h : chronOrdered (d :: rest)) : chronOrdered rest :=
  (List.pairwise_cons.mp h).2

/-! ### The main label-selector characterization -/

theorem selectLabels_cons_cons (d d2 : DateTime) (rest2 : List DateTime) :
    selectLabels (d :: d2 :: rest2) =
      if should_show_label d (some d2) then d :: selectLabels (d2 :: rest2)
      else selectLabels (d2 :: rest2) := rfl

/-- On a chronologically ordered series, the label selector emits one label
per (year, month) bucket, namely the last bar of each bucket. -/
theorem selectLabels_spec (l : List DateTime) (h : chronOrdered l) :
    (selectLabels l).length = ((l.map ym).dedup).length ∧
    ∀ d ∈ selectLabels l,
      (l.filter (fun x => decide (ym x = ym d))).getLast? = some d := by
  induction l with
  | nil => simp [selectLabels]
  | cons d rest ih =>
      cases rest with
      | nil =>
          refine ⟨by simp [selectLabels_singleton], ?_⟩
          intro d' hd'
          rw [selectLabels_singleton, List.mem_singleton] at hd'
          subst hd'
          simp [List.filter_cons]
      | cons d2 rest2 =>
          have htail : chronOrdered (d2 :: rest2) := chronOrdered_tail h
          obtain ⟨ihlen, ihlast⟩ := ih htail
          by_cases hym : ym d = ym d2
          · -- bucket continues: the current bar is skipped
            have hssl : ¬ should_show_label d (some d2) = true := by
              rw [ssl_some_iff]
              exact not_not_intro hym
            rw [selectLabels_cons_cons, if_neg hssl]
            have hmem : ym d ∈ (d2 :: rest2).map ym :=
              List.mem_map.mpr ⟨d2, by simp, hym.symm⟩
            constructor
            · rw [List.map_cons, List.dedup_cons_of_mem hmem]
              exact ihlen
            · intro d' hd'
              have hlast := ihlast d' hd'
              by_cases hdd : ym d = ym d'
              · rw [List.filter_cons, if_pos (by simpa using hdd)]
                rcases hfe : (d2 :: rest2).filter (fun x => decide (ym x = ym d')) with _ | ⟨y, ys⟩
                · rw [hfe] at hlast
                  simp at hlast
                · rw [hfe] at hlast
                  rw [List.getLast?_cons_cons, hlast]
              · rw [List.filter_cons, if_neg (by simpa using hdd)]
                exact hlast
          · -- bucket boundary: the current bar is emitted
            have hssl : should_show_label d (some d2) = true :=
              (ssl_some_iff d d2).mpr hym
            rw [selectLabels_cons_cons, if_pos hssl]
            have hlt := chron_head_ymLt h hym
            have hneq : ∀ x ∈ d2 :: rest2, ym x ≠ ym d := by
              intro x hx he
              exact ymLt_irrefl (ym d) (he ▸ hlt x hx)
            have hnot : ym d ∉ (d2 :: rest2).map ym := by
              rw [List.mem_map]
              rintro ⟨x, hx, he⟩
              exact hneq x hx he
            constructor
            · rw [List.map_cons, List.dedup_cons_of_not_mem hnot]
              simp [ihlen]
            · intro d' hd'
              rcases List.mem_cons.mp hd' with rfl | hd'
              · rw [List.filter_cons, if_pos (by simp)]
                have hfe : (d2 :: rest2).filter (fun x => decide (ym x = ym d')) = [] := by
                  rw [List.filter_eq_nil_iff]
                  intro x hx
                  simpa using hneq x hx
                rw [hfe]
                rfl
              · have hdd : ym d ≠ ym d' :=
                  fun he => hneq d' (mem_of_mem_selectLabels hd') he.symm
                rw [List.filter_cons, if_neg (by simpa using hdd)]
                exact ihlast d' hd'

/-! ## Claim theorems for the label selector -/

/-- C1: for every chronologically ordered timestamp sequence spanning N
distinct (year, month) pairs, the label-selection walk of `main` produces
exactly N labels, each equal to the last timestamp observed in its
(year, month) bucket, and the labels appear in chronological order (they
form a sublist of the input sequence). -/
theorem C1_label_selector (l : List DateTime) (h : chronOrdered l) :
    (selectLabels l).length = ((l.map ym).dedup).length ∧
    (∀ d ∈ selectLabels l,
      (l.filter (fun x => decide (ym x = ym d))).getLast? = some d) ∧
    (selectLabels l).Sublist l :=
  ⟨(selectLabels_spec l h).1, (selectLabels_spec l h).2, selectLabels_sublist l⟩

/-- A concrete three-bar series: two bars in 2023-01, one in 2023-02. -/
def exBars : List DateTime :=
  [⟨2023, 1, 1672617600⟩, ⟨2023, 1, 1673222400⟩, ⟨2023, 2, 1675641600⟩]

theorem C1_label_selector_witness :
    chronOrdered exBars ∧
    ((selectLabels exBars).length = ((exBars.map ym).dedup).length ∧
     (∀ d ∈ selectLabels exBars,
       (exBars.filter (fun x => decide (ym x = ym d))).getLast? = some d) ∧
     (selectLabels exBars).Sublist exBars) :=
  ⟨by decide, C1_label_selector exBars (by decide)⟩

/-- C7: for every non-empty timestamp sequence, the last timestamp is a
member of the label selector's output. -/
theorem C7_last_label (l : List DateTime) (h : l ≠ []) :
    l.getLast h ∈ selectLabels l :=
  getLast_mem_selectLabels l h

theorem C7_last_label_witness :
    exBars ≠ [] ∧ exBars.getLast (by decide) ∈ selectLabels exBars :=
  ⟨by decide, C7_last_label exBars (by decide)⟩

/-- C8: a single-bar series yields exactly that bar as its one label, and an
empty series yields no labels. -/
theorem C8_single_and_empty (d : DateTime) :
    selectLabels [d] = [d] ∧ selectLabels ([] : List DateTime) = [] :=
  ⟨rfl, rfl⟩

/-! ## Price range calculation (`main`, lines 108–109) -/

/-- Rust's `Iterator::reduce`: `none` on an empty iterator, otherwise the
left fold of `f` over the remaining elements starting from the first. -/
def reduce (f : ℚ → ℚ → ℚ) : List ℚ → Option ℚ
  | [] => none
  | x :: xs => some (xs.foldl f x)

/-- The price-range computation of `main` (lines 108–109):
`highest_price = high_prices.reduce(f64::max).unwrap() + 25.0` and
`lowest_price = low_prices.reduce(f64::min).unwrap() - 25.0`, packaged as
the pair `(lowest_price, highest_price)`.  The `.unwrap()` panic on an
empty sequence is modelled by the `none` branch. -/
def priceRange (highs lows : List ℚ) : Option (ℚ × ℚ) :=
  match reduce max highs, reduce min lows with
  | some hi, some lo => some (lo - 25, hi + 25)
  | _, _ => none

theorem foldl_max_spec (t : List ℚ) : ∀ acc : ℚ,
    (t.foldl max acc = acc ∨ t.foldl max acc ∈ t) ∧
    acc ≤ t.foldl max acc ∧ ∀ x ∈ t, x ≤ t.foldl max acc := by
  induction t with
  | nil => intro acc; simp
  | cons a t ih =>
      intro acc
      obtain ⟨hmem, hacc, hall⟩ := ih (max acc a)
      simp only [List.foldl_cons]
      refine ⟨?_, le_trans (le_max_left acc a) hacc, ?_⟩
      · rcases hmem with him | him
        · rcases max_choice acc a with hc | hc
          · exact Or.inl (him.trans hc)
          · refine Or.inr ?_
            rw [him, hc]
            exact List.mem_cons_self a t
        · exact Or.inr (List.mem_cons_of_mem a him)
      · intro x hx
        rcases List.mem_cons.mp hx with rfl | hx
        · exact le_trans (le_max_right acc x) hacc
        · exact hall x hx

theorem foldl_min_spec (t : List ℚ) : ∀ acc : ℚ,
    (t.foldl min acc = acc ∨ t.foldl min acc ∈ t) ∧
    t.foldl min acc ≤ acc ∧ ∀ x ∈ t, t.foldl min acc ≤ x := by
  induction t with
  | nil => intro acc; simp
  | cons a t ih =>
      intro acc
      obtain ⟨hmem, hacc, hall⟩ := ih (min acc a)
      simp only [List.foldl_cons]
      refine ⟨?_, le_trans hacc (min_le_left acc a), ?_⟩
      · rcases hmem with him | him
        · rcases min_choice acc a with hc | hc
          · exact Or.inl (him.trans hc)
          · refine Or.inr ?_
            rw [him, hc]
            exact List.mem_cons_self a t
        · exact Or.inr (List.mem_cons_of_mem a him)
      · intro x hx
        rcases List.mem_cons.mp hx with rfl | hx
        · exact le_trans hacc (min_le_right acc x)
        · exact hall x hx

/-- C2: on non-empty high and low sequences the price-range computation
returns `(min(lows) - 25, max(highs) + 25)`: the returned `y_min` plus the
padding is the least low, and the returned `y_max` minus the padding is the
greatest high. -/
theorem C2_price_range (highs lows : List ℚ) (hh : highs ≠ []) (hl : lows ≠ []) :
    ∃ y_min y_max : ℚ,
      priceRange highs lows = some (y_min, y_max) ∧
      y_min + 25 ∈ lows ∧ (∀ x ∈ lows, y_min + 25 ≤ x) ∧
      y_max - 25 ∈ highs ∧ (∀ x ∈ highs, x ≤ y_max - 25) := by
  cases highs with
  | nil => exact absurd rfl hh
  | cons h1 ht =>
      cases lows with
      | nil => exact absurd rfl hl
      | cons l1 lt =>
          obtain ⟨hmemM, haccM, hallM⟩ := foldl_max_spec ht h1
          obtain ⟨hmemm, haccm, hallm⟩ := foldl_min_spec lt l1
          refine ⟨lt.foldl min l1 - 25, ht.foldl max h1 + 25, rfl, ?_, ?_, ?_, ?_⟩
          · have he : lt.foldl min l1 - 25 + 25 = lt.foldl min l1 := by ring
            rw [he]
            rcases hmemm with hm | hm
            · rw [hm]; exact List.mem_cons_self l1 lt
            · exact List.mem_cons_of_mem l1 hm
          · intro x hx
            have he : lt.foldl min l1 - 25 + 25 = lt.foldl min l1 := by ring
            rw [he]
            rcases List.mem_cons.mp hx with rfl | hx
            · exact haccm
            · exact hallm x hx
          · have he : ht.foldl max h1 + 25 - 25 = ht.foldl max h1 := by ring
            rw [he]
            rcases hmemM with hm | hm
            · rw [hm]; exact List.mem_cons_self h1 ht
            · exact List.mem_cons_of_mem h1 hm
          · intro x hx
            have he : ht.foldl max h1 + 25 - 25 = ht.foldl max h1 := by ring
            rw [he]
            rcases List.mem_cons.mp hx with rfl | hx
            · exact haccM
            · exact hallM x hx

/-- Example high series with maximum 180. -/
def exHighs : List ℚ := [150, 180, 160]

/-- Example low series with minimum 120. -/
def exLows : List ℚ := [130, 120, 125]

theorem C2_price_range_witness :
    exHighs ≠ [] ∧ exLows ≠ [] ∧
    priceRange exHighs exLows = some (95, 205) ∧
    (∃ y_min y_max : ℚ,
      priceRange exHighs exLows = some (y_min, y_max) ∧
      y_min + 25 ∈ exLows ∧ (∀ x ∈ exLows, y_min + 25 ≤ x) ∧
      y_max - 25 ∈ exHighs ∧ (∀ x ∈ exHighs, x ≤ y_max - 25)) :=
  ⟨by simp [exHighs], by simp [exLows],
   by norm_num [priceRange, reduce, exHighs, exLows, max_def, min_def],
   C2_price_range exHighs exLows (by simp [exHighs]) (by simp [exLows])⟩

/-- C5 evidence: on an empty series the price-range computation of `main`
has no value to `unwrap()` — the modelled result is `none` (a panic), not a
named `EmptySeriesError` value. -/
theorem C5_empty_series_panics :
    priceRange ([] : List ℚ) ([] : List ℚ) = none := rfl

/-! ## Candlestick construction and colors (`main`, lines 140–149) -/

/-- A chart color used by the program (plotters `GREEN`, `RED`, `WHITE`). -/
inductive ChartColor
  | green
  | red
  | white
deriving DecidableEq, Repr

/-- A plotters shape style: a color plus the filled flag set by `.filled()`. -/
structure ShapeStyle where
  color : ChartColor
  filledFlag : Bool
deriving DecidableEq, Repr

/-- The gain style argument `GREEN.filled()` passed at line 146. -/
def GREEN_filled : ShapeStyle := ⟨ChartColor.green, true⟩

/-- The loss style argument `RED.filled()` passed at line 147. -/
def RED_filled : ShapeStyle := ⟨ChartColor.red, true⟩

/-- One rendered candlestick glyph: its position, the four prices, the
resolved style (used for both the filled body and the outline), and the
pixel width. -/
structure CandleStickGlyph where
  x : DateTime
  open_price : ℚ
  high_price : ℚ
  low_price : ℚ
  close_price : ℚ
  style : ShapeStyle
  width : Nat
deriving DecidableEq, Repr

/-- Modelled from the spec: plotters' `CandleStick::new` is library code not
present in the repository; per the spec's color rule it resolves the glyph
style to the gain style exactly when `close > open` (strictly) and to the
loss style otherwise (`close <= open`, including equality), the resolved
style being used for both fill and outline. -/
def candleStickNew (x : DateTime) (open_price high_price low_price close_price : ℚ)
    (gain_style loss_style : ShapeStyle) (width : Nat) : CandleStickGlyph :=
  ⟨x, open_price, high_price, low_price, close_price,
   if open_price < close_price then gain_style else loss_style, width⟩

/-- C3: the renderer colors each bar by strict comparison of close against
open — strictly rising bars get the green filled style, all others
(including exact equality) the red filled style. -/
theorem C3_color_rule (x : DateTime) (o hp lp c : ℚ) :
    (o < c →
      (candleStickNew x o hp lp c GREEN_filled RED_filled 15).style = GREEN_filled) ∧
    (c ≤ o →
      (candleStickNew x o hp lp c GREEN_filled RED_filled 15).style = RED_filled) := by
  constructor
  · intro hlt
    simp [candleStickNew, hlt]
  · intro hle
    simp [candleStickNew, not_lt.mpr hle]

/-- A fixed plotting position for concrete examples. -/
def dt0 : DateTime := ⟨2023, 1, 1672617600⟩

theorem C3_color_rule_witness :
    ((100 : ℚ) < 105 ∧
      (candleStickNew dt0 100 110 90 105 GREEN_filled RED_filled 15).style = GREEN_filled) ∧
    ((95 : ℚ) ≤ 100 ∧
      (candleStickNew dt0 100 110 90 95 GREEN_filled RED_filled 15).style = RED_filled) ∧
    ((100 : ℚ) ≤ 100 ∧
      (candleStickNew dt0 100 110 90 100 GREEN_filled RED_filled 15).style = RED_filled) :=
  ⟨⟨by norm_num, (C3_color_rule dt0 100 110 90 105).1 (by norm_num)⟩,
   ⟨by norm_num, (C3_color_rule dt0 100 110 90 95).2 (by norm_num)⟩,
   ⟨le_refl 100, (C3_color_rule dt0 100 110 90 100).2 (le_refl 100)⟩⟩

/-! ## The status gate of `StockCandles::get` (lines 52–56) -/

/-- How `StockCandles::get` concludes after deserializing the response:
either the response is returned through the normal `Ok` path, or the
process is torn down by `panic!`. -/
inductive GetOutcome
  | ok (response : StockCandles)
  | panicked (msg : String)
deriving DecidableEq, Repr

/-- The status gate (lines 52–56): `if response.s != "ok" { panic!("Error:
{}", response.s); }` followed by `Ok(response)`. -/
def statusGate (response : StockCandles) : GetOutcome :=
  if response.s ≠ "ok" then GetOutcome.panicked ("Error: " ++ response.s)
  else GetOutcome.ok response

/-- C6 evidence: a provider response whose status is "no_data" makes
`StockCandles::get` call `panic!` — an uncontrolled termination, not a
typed error value returned through the result path. -/
theorem C6_bad_status_panics :
    statusGate ⟨[], [], [], [], "no_data", [], []⟩ =
      GetOutcome.panicked "Error: no_data" := by
  rfl

/-! ## The outbound fetch request (lines 37–41) -/

/-- The URL built by `StockCandles::get` (the `format!` at lines 38–41):
the resolution is the literal `W` in the format string. -/
def candleUrl (symbol : String) (fromTs toTs : Int) (token : String) : String :=
  "https://finnhub.io/api/v1/stock/candle?symbol=" ++ symbol ++
    "&resolution=W&from=" ++ toString fromTs ++ "&to=" ++ toString toTs ++
    "&token=" ++ token

/-- The query parameters carried by `candleUrl`, as key/value pairs. -/
def candleQuery (symbol : String) (fromTs toTs : Int) (token : String) :
    List (String × String) :=
  [("symbol", symbol), ("resolution", "W"), ("from", toString fromTs),
   ("to", toString toTs), ("token", token)]

/-- Consistency check: `candleQuery` is the query-string reading of `candleUrl`, on a
concrete input. -/
theorem candleUrl_query_consistent :
    candleUrl "AAPL" 100 200 "tok" =
      "https://finnhub.io/api/v1/stock/candle?" ++
        String.intercalate "&"
          ((candleQuery "AAPL" 100 200 "tok").map (fun p => p.1 ++ "=" ++ p.2)) := by
  rfl

/-- In `main` (line 40) the fetcher receives `from_date.timestamp()` and
`to_date.timestamp()` — the epoch-second forms — into the URL. -/
def getQuery (symbol : String) (from_date to_date : DateTime) (token : String) :
    List (String × String) :=
  candleQuery symbol from_date.secs to_date.secs token

theorem candleQuery_resolution (symbol : String) (fromTs toTs : Int) (token : String) :
    (candleQuery symbol fromTs toTs token).lookup "resolution" = some "W" := by
  rfl

/-- C9 counterexample: no request the fetcher can build ever carries the
resolution parameter `D` — the resolution is hardcoded to `W`, so the
claimed Daily branch is impossible. -/
theorem C9_counterexample :
    ¬ ∃ (symbol : String) (fromTs toTs : Int) (token : String),
        (candleQuery symbol fromTs toTs token).lookup "resolution" = some "D" := by
  rintro ⟨s, f, t, k, hlook⟩
  rw [candleQuery_resolution] at hlook
  exact absurd (Option.some.inj hlook) (by decide)

/-- C9 (amended): the outbound request carries `symbol`, the resolution
hardcoded to `W` (no Daily resolution can be requested), `from` and `to` as
the integer epoch seconds of `from_date` and `to_date`, and the API token. -/
theorem C9_query_params (symbol : String) (from_date to_date : DateTime) (token : String) :
    (getQuery symbol from_date to_date token).lookup "symbol" = some symbol ∧
    (getQuery symbol from_date to_date token).lookup "resolution" = some "W" ∧
    (getQuery symbol from_date to_date token).lookup "from" =
      some (toString from_date.secs) ∧
    (getQuery symbol from_date to_date token).lookup "to" =
      some (toString to_date.secs) ∧
    (getQuery symbol from_date to_date token).lookup "token" = some token :=
  ⟨rfl, rfl, rfl, rfl, rfl⟩

/-! ## The per-index rendering loop (`main`, lines 130–156) -/

/-- The body of `close_prices.iter().enumerate().for_each(...)` (lines
130–156): at each index of the close series, the open, high, low and
timestamp sequences are indexed directly; a Rust out-of-bounds panic is
modelled by the whole loop yielding `none`.  The volume sequence is never
touched. -/
def drawCandlesGo (open_prices high_prices low_prices : List ℚ)
    (timestamps : List DateTime) : Nat → List ℚ → Option (List CandleStickGlyph)
  | _, [] => some []
  | index, close_price :: rest =>
      match open_prices.get? index, high_prices.get? index,
            low_prices.get? index, timestamps.get? index with
      | some o, some hp, some lp, some ts =>
          (drawCandlesGo open_prices high_prices low_prices timestamps
              (index + 1) rest).map
            (fun glyphs =>
              candleStickNew ts o hp lp close_price GREEN_filled RED_filled 15 :: glyphs)
      | _, _, _, _ => none

/-- The full rendering loop, starting at index 0. -/
def drawCandles (open_prices high_prices low_prices : List ℚ)
    (timestamps : List DateTime) (close_prices : List ℚ) :
    Option (List CandleStickGlyph) :=
  drawCandlesGo open_prices high_prices low_prices timestamps 0 close_prices

/-- The post-fetch pipeline of `main` (lines 80–156): convert timestamps,
select labels, compute the padded price range, then draw every candle.
Each Rust panic point (`unwrap` of the reductions, out-of-bounds indexing)
is modelled by `none`. -/
def plotPipeline (sc : StockCandles) :
    Option (List DateTime × ℚ × ℚ × List CandleStickGlyph) :=
  let timestamps := convertTimestamps sc.t
  let labels := selectLabels timestamps
  match priceRange sc.h sc.l with
  | none => none
  | some (y_min, y_max) =>
      match drawCandles sc.o sc.h sc.l timestamps sc.c with
      | none => none
      | some glyphs => some (labels, y_min, y_max, glyphs)

theorem priceRange_isSome {highs lows : List ℚ} (hh : highs ≠ []) (hl : lows ≠ []) :
    ∃ p, priceRange highs lows = some p := by
  cases highs with
  | nil => exact absurd rfl hh
  | cons h1 ht =>
      cases lows with
      | nil => exact absurd rfl hl
      | cons l1 lt => exact ⟨_, rfl⟩

theorem drawCandlesGo_isSome (open_prices high_prices low_prices : List ℚ)
    (timestamps : List DateTime) :
    ∀ (cs : List ℚ) (i : Nat),
      i + cs.length ≤ open_prices.length → i + cs.length ≤ high_prices.length →
      i + cs.length ≤ low_prices.length → i + cs.length ≤ timestamps.length →
      (drawCandlesGo open_prices high_prices low_prices timestamps i cs).isSome
        = true := by
  intro cs
  induction cs with
  | nil => intro i _ _ _ _; rfl
  | cons c rest ih =>
      intro i h1 h2 h3 h4
      simp only [List.length_cons] at h1 h2 h3 h4
      obtain ⟨o, ho⟩ : ∃ o, open_prices.get? i = some o :=
        ⟨_, List.get?_eq_get (by omega)⟩
      obtain ⟨hp, hhp⟩ : ∃ hp, high_prices.get? i = some hp :=
        ⟨_, List.get?_eq_get (by omega)⟩
      obtain ⟨lp, hlp⟩ : ∃ lp, low_prices.get? i = some lp :=
        ⟨_, List.get?_eq_get (by omega)⟩
      obtain ⟨ts, hts⟩ : ∃ ts, timestamps.get? i = some ts :=
        ⟨_, List.get?_eq_get (by omega)⟩
      obtain ⟨g, hg⟩ := Option.isSome_iff_exists.mp
        (ih (i + 1) (by omega) (by omega) (by omega) (by omega))
      rw [drawCandlesGo, ho, hhp, hlp, hts]
      dsimp only
      rw [hg]
      rfl

theorem drawCandlesGo_none_of_ts_short (open_prices high_prices low_prices : List ℚ)
    (timestamps : List DateTime) :
    ∀ (cs : List ℚ) (i : Nat), cs ≠ [] → timestamps.length < i + cs.length →
      drawCandlesGo open_prices high_prices low_prices timestamps i cs = none := by
  intro cs
  induction cs with
  | nil => intro i hne _; exact absurd rfl hne
  | cons c rest ih =>
      intro i _ hshort
      simp only [List.length_cons] at hshort
      cases ho : open_prices.get? i with
      | none => rw [drawCandlesGo, ho]
      | some o =>
          cases hhp : high_prices.get? i with
          | none => rw [drawCandlesGo, ho, hhp]
          | some hp =>
              cases hlp : low_prices.get? i with
              | none => rw [drawCandlesGo, ho, hhp, hlp]
              | some lp =>
                  cases hts : timestamps.get? i with
                  | none => rw [drawCandlesGo, ho, hhp, hlp, hts]
                  | some ts =>
                      have hi : i < timestamps.length := by
                        by_contra hge
                        rw [List.get?_eq_none.mpr (by omega)] at hts
                        exact Option.noConfusion hts
                      have hrest : rest ≠ [] := by
                        intro he
                        subst he
                        simp only [List.length_nil] at hshort
                        omega
                      rw [drawCandlesGo, ho, hhp, hlp, hts]
                      dsimp only
                      rw [ih (i + 1) hrest (by omega)]
                      rfl

/-! ### Length behavior of the timestamp conversion -/

theorem convertTimestamps_length_le (ts : List Int) :
    (convertTimestamps ts).length ≤ ts.length :=
  List.length_filterMap_le parse_time ts

theorem convertTimestamps_length_of_all {ts : List Int}
    (hall : ∀ t0 ∈ ts, (parse_time t0).isSome = true) :
    (convertTimestamps ts).length = ts.length := by
  induction ts with
  | nil => rfl
  | cons a t ih =>
      obtain ⟨d, hd⟩ := Option.isSome_iff_exists.mp (hall a (by simp))
      have hrec := ih (fun t0 ht0 => hall t0 (by simp [ht0]))
      simp only [convertTimestamps, List.filterMap_cons, hd, List.length_cons] at hrec ⊢
      omega

theorem convertTimestamps_length_lt (t0 : Int) (hfail : parse_time t0 = none) :
    ∀ ts : List Int, t0 ∈ ts → (convertTimestamps ts).length < ts.length := by
  intro ts
  induction ts with
  | nil => intro hmem; simp at hmem
  | cons a t ih =>
      intro hmem
      rcases List.mem_cons.mp hmem with rfl | hmem
      · have := List.length_filterMap_le parse_time t
        simp only [convertTimestamps, List.filterMap_cons, hfail, List.length_cons]
        omega
      · cases hfa : parse_time a with
        | none =>
            have := List.length_filterMap_le parse_time t
            simp only [convertTimestamps, List.filterMap_cons, hfa, List.length_cons]
            omega
        | some d =>
            have hrec := ih hmem
            simp only [convertTimestamps, List.filterMap_cons, hfa,
              List.length_cons] at hrec ⊢
            omega

/-! ## Claims about shape checking and timestamp dropping -/

/-- A response whose parallel sequences have lengths [5,5,5,5,5,4]: the
volume sequence is one element short. -/
def scMismatch : StockCandles :=
  { c := [1, 2, 3, 4, 5]
    h := [10, 20, 30, 40, 50]
    l := [0, 1, 2, 3, 4]
    o := [1, 2, 3, 4, 5]
    s := "ok"
    t := [86400, 172800, 259200, 345600, 432000]
    v := [100, 200, 300, 400] }

/-- C4 evidence: on a response with parallel lengths [5,5,5,5,5,4] (volumes
one short), the pipeline performs all of its indexed rendering and
completes successfully — no length validation exists anywhere in the
program, and the volume sequence is never indexed at all, so no
`ShapeMismatchError` (nor any failure) occurs. -/
theorem C4_no_shape_check : (plotPipeline scMismatch).isSome = true := by
  obtain ⟨p, hp⟩ :=
    @priceRange_isSome scMismatch.h scMismatch.l (by simp [scMismatch]) (by simp [scMismatch])
  obtain ⟨y_min, y_max⟩ := p
  have hts : (convertTimestamps scMismatch.t).length = 5 := by decide
  have hdraw : (drawCandles scMismatch.o scMismatch.h scMismatch.l
      (convertTimestamps scMismatch.t) scMismatch.c).isSome = true := by
    apply drawCandlesGo_isSome
    · simp [scMismatch]
    · simp [scMismatch]
    · simp [scMismatch]
    · rw [hts]; simp [scMismatch]
  obtain ⟨g, hg⟩ := Option.isSome_iff_exists.mp hdraw
  rw [plotPipeline, hp]
  dsimp only
  rw [hg]
  rfl

/-- C10: raw epoch timestamps whose calendar conversion fails are silently
dropped by the `filter_map` (the converted list is merely shorter — no
error value exists), so the converted timestamp sequence can be strictly
shorter than the price sequences; the per-index timestamp access of the
rendering loop stays in bounds precisely under the precondition that every
raw timestamp converts successfully — if any raw timestamp fails to
convert, the loop indexes past the converted sequence and panics. -/
theorem C10_timestamp_drop :
    (∀ ts : List Int, (convertTimestamps ts).length ≤ ts.length) ∧
    (∃ ts : List Int, (convertTimestamps ts).length < ts.length) ∧
    (∀ (open_prices high_prices low_prices close_prices : List ℚ) (raw : List Int),
        open_prices.length = close_prices.length →
        high_prices.length = close_prices.length →
        low_prices.length = close_prices.length →
        raw.length = close_prices.length →
        (∀ t0 ∈ raw, (parse_time t0).isSome = true) →
        (drawCandles open_prices high_prices low_prices
          (convertTimestamps raw) close_prices).isSome = true) ∧
    (∀ (open_prices high_prices low_prices close_prices : List ℚ) (raw : List Int),
        open_prices.length = close_prices.length →
        high_prices.length = close_prices.length →
        low_prices.length = close_prices.length →
        raw.length = close_prices.length →
        (∃ t0 ∈ raw, parse_time t0 = none) →
        drawCandles open_prices high_prices low_prices
          (convertTimestamps raw) close_prices = none) := by
  refine ⟨convertTimestamps_length_le, ⟨[100000000000000000], ?_⟩, ?_, ?_⟩
  · have hbig : parse_time 100000000000000000 = none := by decide
    simp [convertTimestamps, hbig]
  · intro op hi lo cl raw h1 h2 h3 h4 hall
    apply drawCandlesGo_isSome
    · omega
    · omega
    · omega
    · rw [convertTimestamps_length_of_all hall]
      omega
  · intro op hi lo cl raw h1 h2 h3 h4 hex
    obtain ⟨t0, ht0, hfail⟩ := hex
    have hlt := convertTimestamps_length_lt t0 hfail raw ht0
    have hclne : cl ≠ [] := by
      intro he
      subst he
      simp only [List.length_nil] at h4
      rw [List.length_eq_zero] at h4
      subst h4
      simp at ht0
    rw [drawCandles]
    exact drawCandlesGo_none_of_ts_short op hi lo (convertTimestamps raw) cl 0 hclne
      (by omega)

/-- A raw timestamp list that converts in full. -/
def exRawGood : List Int := [86400, 172800, 259200]

theorem C10_timestamp_drop_witness :
    (drawCandles [1, 2, 3] [10, 20, 30] [0, 1, 2]
      (convertTimestamps exRawGood) [5, 6, 7]).isSome = true :=
  C10_timestamp_drop.2.2.1 [1, 2, 3] [10, 20, 30] [0, 1, 2] [5, 6, 7] exRawGood
    rfl rfl rfl rfl (by decide)
